import Mathlib

/-!
Verification model of the PostgreSQL migration tool in `migrate.py`.

The embedding is shallow: file discovery, the migration ledger, the
apply/record protocol and the template renderer are translated into pure
Lean functions over explicit state.  Database effects are recorded as an
event trace; the outcome of executing a SQL script is an oracle carried by
the `World` state (`execOk`, `callbackOk`), since the tool treats every
script as an opaque statement batch that either commits or raises.
-/

namespace MigrateModel

/-! ### Byte-wise lexicographic order on filenames

Python's `sorted` orders `str` values by code points, which coincides with
byte-wise UTF-8 order.  We model it directly on `List Char`. -/

/-- Strict code-point lexicographic order on character lists. -/
def lexLt : List Char → List Char → Bool
  | [], [] => false
  | [], _ :: _ => true
  | _ :: _, [] => false
  | a :: as, b :: bs =>
      decide (a < b) || (decide (a = b) && lexLt as bs)

/-- Reflexive code-point lexicographic order on character lists. -/
def lexLe : List Char → List Char → Bool
  | [], _ => true
  | _ :: _, [] => false
  | a :: as, b :: bs =>
      decide (a < b) || (decide (a = b) && lexLe as bs)

/-! ### Data model -/

/-- A file on disk: its base name and the checksum of its raw bytes.
The checksum stands for `hashlib.md5(content).hexdigest()`; the tool never
inspects it beyond equality, and the spec rules out reasoning about hash
collisions, so the hash itself is kept abstract. -/
structure MigFile where
  filename : String
  checksum : String
deriving DecidableEq

/-- `Migration` descriptor, as built by `Migration.from_file`. -/
structure Migration where
  filename : String
  description : String
  checksum : String
deriving DecidableEq

/-- One row of the `schema_migrations` ledger table. -/
structure LedgerEntry where
  rank : Nat
  script : String
  description : String
  checksum : String
  installedBy : String
  executionTime : Nat
  success : Bool
deriving DecidableEq

/-- Observable database effects of one `migrate` invocation, in order. -/
inductive Event where
  | createDatabase
  | connect
  | createLedgerTable
  | execScript (name : String)
  | execCallback (name : String)
  | commit
  | rollback
  | insertLedger (script : String) (success : Bool)
  | close
deriving DecidableEq

/-- Outcome of a `migrate` invocation: a process exit code returned by
`MigrationRunner.migrate`, or an uncaught exception propagating out of it. -/
inductive RunResult where
  | exit (code : Nat)
  | exn
deriving DecidableEq

/-- The state a `migrate` invocation runs against, together with the
oracles deciding whether a given script's SQL commits or raises. -/
structure World where
  dbExists : Bool
  ledgerTableExists : Bool
  ledger : List LedgerEntry
  migrationsDir : List MigFile
  afterMigrateDir : Option (List MigFile)
  execOk : String → Bool
  callbackOk : String → Bool
  execTime : String → Nat
  user : String

/-! ### File discovery: `migrations_dir.glob("*.sql")` plus `sorted` -/

/-- `Path.glob("*.sql")` matches exactly the names ending in `.sql`
(a leading dot included: pathlib wildcards do match hidden files). -/
def isSqlName (fn : String) : Bool :=
  fn.data.drop (fn.data.length - 4) == (".sql").data

/-- The ordering `sorted` uses, lifted to files. -/
def fileLe (a b : MigFile) : Prop :=
  lexLe a.filename.data b.filename.data = true

instance : DecidableRel fileLe := fun _ _ =>
  inferInstanceAs (Decidable (_ = true))

/-- `sorted(self.migrations_dir.glob("*.sql"))`. -/
def globSql (dir : List MigFile) : List MigFile :=
  List.insertionSort fileLe (dir.filter (fun f => isSqlName f.filename))

/-! ### `Migration.from_file` -/

/-- `filepath.stem.replace("_", " ")` for a name ending in `.sql`. -/
def descriptionOf (fn : String) : String :=
  String.mk ((fn.data.take (fn.data.length - 4)).map (fun c => if c = '_' then ' ' else c))

/-- Build the descriptor from a discovered file (the `.sql` extension check
always passes after `glob("*.sql")`). -/
def Migration.from_file (f : MigFile) : Migration :=
  { filename := f.filename
    description := descriptionOf f.filename
    checksum := f.checksum }

/-! ### `get_applied_migrations` and `get_pending_migrations` -/

/-- `get_applied_migrations` builds a dict keyed by `script` from the rows
ordered by `installed_rank`; a later row with the same script would win,
hence the reversed search. -/
def get_applied_migrations (ledger : List LedgerEntry) : String → Option LedgerEntry :=
  fun s => ledger.reverse.find? (fun e => e.script == s)

/-- The filtering loop of `get_pending_migrations`: returns the pending
descriptors in order, together with the filenames warned about because the
recorded checksum differs from the current one. -/
def pendingScan (applied : String → Option LedgerEntry) :
    List Migration → List Migration × List String
  | [] => ([], [])
  | m :: rest =>
      let r := pendingScan applied rest
      match applied m.filename with
      | none => (m :: r.1, r.2)
      | some e => if e.checksum = m.checksum then r else (r.1, m.filename :: r.2)

/-- `get_pending_migrations`: all on-disk `.sql` files in sorted order,
minus those whose filename appears in the ledger; drifted checksums only
produce warnings. -/
def get_pending_migrations (dir : List MigFile) (ledger : List LedgerEntry) :
    List Migration × List String :=
  pendingScan (get_applied_migrations ledger) ((globSql dir).map Migration.from_file)

/-! ### Template renderer: `render_sql_template` -/

/-- Opening brace character, code point 123. -/
def lbrace : Char := Char.ofNat 123

/-- Closing brace character, code point 125. -/
def rbrace : Char := Char.ofNat 125

/-- First character of a template identifier: `[A-Za-z_]`. -/
def isIdentStart (c : Char) : Bool :=
  (decide (65 ≤ c.toNat) && decide (c.toNat ≤ 90)) ||
    (decide (97 ≤ c.toNat) && decide (c.toNat ≤ 122)) ||
      decide (c.toNat = 95)

/-- Continuation character of a template identifier: `[A-Za-z0-9_]`. -/
def isIdentCont (c : Char) : Bool :=
  isIdentStart c || (decide (48 ≤ c.toNat) && decide (c.toNat ≤ 57))

/-- A non-empty identifier matching `[A-Za-z_][A-Za-z0-9_]*`. -/
def validIdent : List Char → Bool
  | [] => false
  | c :: cs => isIdentStart c && cs.all isIdentCont

/-- Attempt to match the regex `\$\{([A-Za-z_][A-Za-z0-9_]*)\}` at the head
of the text.  The identifier class excludes the closing brace, so the
greedy scan of the regex engine is exactly: take the maximal identifier
run and then require a closing brace. -/
def scanPH (s : List Char) : Option (List Char × List Char) :=
  match s with
  | a :: b :: c :: rest =>
      if a = '$' ∧ b = lbrace ∧ isIdentStart c = true then
        match rest.dropWhile isIdentCont with
        | d :: after => if d = rbrace then some (c :: rest.takeWhile isIdentCont, after) else none
        | [] => none
      else none
  | _ => none

/-- The template-variable mapping: association list from names to the
string form of the values (the tool applies `str` to each value). -/
def lookupVar (vars : List (String × String)) (name : String) : Option String :=
  (vars.find? (fun p => p.1 == name)).map (fun p => p.2)

/-- The `re.sub` loop of `render_sql_template`, with explicit fuel so the
scan is structurally recursive (each step consumes at least one character,
so fuel equal to the text length is always enough): scan left to right; at
a match, substitute when the identifier is a key of the mapping and keep
the matched text verbatim otherwise (`replace_var` returns
`match.group(0)`); at a non-match, emit one character and continue. -/
def renderGo (vars : List (String × String)) : Nat → List Char → List Char
  | 0, s => s
  | fuel + 1, s =>
      match scanPH s with
      | some (id, after) =>
          (match lookupVar vars (String.mk id) with
           | some v => v.data
           | none => '$' :: lbrace :: (id ++ [rbrace])) ++ renderGo vars fuel after
      | none =>
          match s with
          | [] => []
          | c :: rest => c :: renderGo vars fuel rest

/-- The full left-to-right substitution pass of `re.sub`. -/
def renderList (vars : List (String × String)) (s : List Char) : List Char :=
  renderGo vars s.length s

/-- `render_sql_template`, including the early return on an empty mapping. -/
def render_sql_template (vars : List (String × String)) (sqlContent : String) : String :=
  if vars.isEmpty then sqlContent
  else String.mk (renderList vars sqlContent.data)

/-- Whether the pattern matches anywhere in the text. -/
def hasMatch : List Char → Bool
  | [] => false
  | c :: rest => (scanPH (c :: rest)).isSome || hasMatch rest

/-! ### The apply/record protocol: `apply_migration` -/

/-- The event block emitted by `apply_migration` for one attempted script:
execute and commit, then record a success row in a second transaction; or
execute, roll back the partial transaction, then record a failure row. -/
def applyEvents (f : String) (ok : Bool) : List Event :=
  if ok then
    [Event.execScript f, Event.commit, Event.insertLedger f true, Event.commit]
  else
    [Event.execScript f, Event.rollback, Event.insertLedger f false, Event.commit]

/-- The ledger row inserted for one attempted migration; `rank` models the
SERIAL primary key. -/
def ledgerRow (w : World) (ledger : List LedgerEntry) (m : Migration) : LedgerEntry :=
  { rank := ledger.length + 1
    script := m.filename
    description := m.description
    checksum := m.checksum
    installedBy := w.user
    executionTime := w.execTime m.filename
    success := w.execOk m.filename }

/-- `apply_migration`: in dry-run mode only a preview is printed; otherwise
the script runs and exactly one ledger row is inserted recording the
outcome. -/
def apply_migration (w : World) (dryRun : Bool) (ledger : List LedgerEntry)
    (m : Migration) : Bool × List LedgerEntry × List Event :=
  if dryRun then (true, ledger, [])
  else
    (w.execOk m.filename, ledger ++ [ledgerRow w ledger m],
      applyEvents m.filename (w.execOk m.filename))

/-- The `for migration in pending` loop of `migrate`: apply in order and
halt at the first failure. -/
def runPending (w : World) (dryRun : Bool) (ledger : List LedgerEntry) :
    List Migration → Bool × List LedgerEntry × List Event
  | [] => (true, ledger, [])
  | m :: rest =>
      let r := apply_migration w dryRun ledger m
      if r.1 then
        let r2 := runPending w dryRun r.2.1 rest
        (r2.1, r2.2.1, r.2.2 ++ r2.2.2)
      else
        (false, r.2.1, r.2.2)

/-- The events of one afterMigrate callback script: execute, then commit,
or roll back on failure. -/
def cbBlock (w : World) (f : MigFile) : List Event :=
  [Event.execCallback f.filename,
   if w.callbackOk f.filename then Event.commit else Event.rollback]

/-- `run_after_migrate_scripts`: every callback script is executed in its
own transaction; a failure rolls back and the loop continues.  In dry-run
mode each script is only announced, and a missing directory means an early
return. -/
def run_after_migrate_scripts (w : World) (dryRun : Bool) : List Event :=
  match w.afterMigrateDir, dryRun with
  | none, _ => []
  | some _, true => []
  | some d, false => (globSql d).flatMap (cbBlock w)

/-- The state as left behind by one `migrate` invocation. -/
def World.afterRun (w : World) (dryRun : Bool) (ledger : List LedgerEntry) : World :=
  { w with
    dbExists := true
    ledgerTableExists := if dryRun then w.ledgerTableExists else true
    ledger := ledger }

/-- `MigrationRunner.migrate`.  `ensure_database_exists` runs
unconditionally (creating the database when absent, dry-run included);
the ledger table is only created outside dry-run, so a dry run against a
database without the ledger table raises from the `SELECT` inside
`get_applied_migrations` and propagates out without reaching `close`. -/
def migrate (w : World) (dryRun : Bool) : RunResult × World × List Event :=
  let dbCreated := !w.dbExists
  let ev0 := (if w.dbExists then [] else [Event.createDatabase]) ++ [Event.connect]
  if dryRun && !w.ledgerTableExists then
    (RunResult.exn, w.afterRun dryRun w.ledger, ev0)
  else
    let ev1 := ev0 ++ (if dryRun then [] else [Event.createLedgerTable])
    let pending := (get_pending_migrations w.migrationsDir w.ledger).1
    if pending.isEmpty then
      let cevs := if dbCreated then [] else run_after_migrate_scripts w dryRun
      (RunResult.exit 0, w.afterRun dryRun w.ledger, ev1 ++ cevs ++ [Event.close])
    else
      let r := runPending w dryRun w.ledger pending
      if r.1 then
        let cevs := run_after_migrate_scripts w dryRun
        (RunResult.exit 0, w.afterRun dryRun r.2.1, ev1 ++ r.2.2 ++ cevs ++ [Event.close])
      else
        (RunResult.exit 1, w.afterRun dryRun r.2.1, ev1 ++ r.2.2 ++ [Event.close])

/-- The pending set as claim C1 words it: the on-disk `.sql` files minus
the ledger entries with matching checksum. -/
def claimPending (dir : List MigFile) (ledger : List LedgerEntry) : List Migration :=
  ((globSql dir).map Migration.from_file).filter
    (fun m => ledger.all (fun e => !(e.script == m.filename && e.checksum == m.checksum)))

/-! ### Trace observation helpers -/

/-- Recognize the execution event of the migration script named `f`. -/
def isExecFor (f : String) : Event → Bool
  | Event.execScript n => n == f
  | _ => false

/-- Recognize a ledger insert for the script named `f`. -/
def isInsertFor (f : String) : Event → Bool
  | Event.insertLedger s _ => s == f
  | _ => false

/-- Number of times the migration script `f` is executed in a trace. -/
def countExec (f : String) (evs : List Event) : Nat :=
  (evs.filter (isExecFor f)).length

/-- Number of ledger rows inserted for script `f` in a trace. -/
def countIns (f : String) (evs : List Event) : Nat :=
  (evs.filter (isInsertFor f)).length

/-- The script names executed by a trace, in order. -/
def execNames (evs : List Event) : List String :=
  evs.filterMap (fun e =>
    match e with
    | Event.execScript n => some n
    | _ => none)

/-- The names a fail-fast loop executes: everything up to and including the
first failing script. -/
def execUpToFail (okf : String → Bool) : List String → List String
  | [] => []
  | n :: rest => if okf n then n :: execUpToFail okf rest else [n]

/-- Strict byte-wise filename order on descriptors. -/
def migLt (a b : Migration) : Prop :=
  lexLt a.filename.data b.filename.data = true

/-! ### Concrete inputs used by witnesses and counterexamples -/

/-- Example migration file `a.sql`. -/
def fA : MigFile := ⟨("a.sql"), ("ca")⟩

/-- Example migration file `b.sql`. -/
def fB : MigFile := ⟨("b.sql"), ("cb")⟩

/-- Example callback script that will fail. -/
def cb1 : MigFile := ⟨("cb1.sql"), ("k1")⟩

/-- Example callback script that succeeds. -/
def cb2 : MigFile := ⟨("cb2.sql"), ("k2")⟩

/-- A ledger row for `a.sql` recorded with a checksum that no longer
matches the file's current content. -/
def rowDrift : LedgerEntry :=
  { rank := 1, script := ("a.sql"), description := ("a"), checksum := ("zz")
    installedBy := ("u"), executionTime := 0, success := true }

/-- A baseline state: existing database and ledger table, empty ledger, no
files, every script succeeding. -/
def baseWorld : World :=
  { dbExists := true
    ledgerTableExists := true
    ledger := []
    migrationsDir := []
    afterMigrateDir := none
    execOk := fun _ => true
    callbackOk := fun _ => true
    execTime := fun _ => 7
    user := ("u") }

/-- Dry-run scenario: the target database does not exist yet, and hence
neither does its ledger table. -/
def wAbsentDb : World :=
  { baseWorld with dbExists := false, ledgerTableExists := false }

/-- Two migrations where `a.sql` fails and `b.sql` would succeed. -/
def wFailA : World :=
  { baseWorld with
    migrationsDir := [fA, fB]
    execOk := fun s => s == ("b.sql") }

/-- Two migrations, both succeeding. -/
def wTwoOk : World := { baseWorld with migrationsDir := [fA, fB] }

/-- `a.sql` already applied but drifted; `b.sql` pending. -/
def wDrift : World := { baseWorld with migrationsDir := [fA, fB], ledger := [rowDrift] }

/-- One migration plus two callback scripts, the first of which fails. -/
def wCallbacks : World :=
  { baseWorld with
    migrationsDir := [fA]
    afterMigrateDir := some [cb1, cb2]
    callbackOk := fun s => s != ("cb1.sql") }

/-- Dry-run scenario: database present but the ledger table absent, so the
`SELECT` inside `get_applied_migrations` raises. -/
def wNoTable : World := { baseWorld with ledgerTableExists := false }

/-! ## Theorems -/

/-! ### The placeholder scanner -/

theorem scanPH_shape {s id after : List Char} (h : scanPH s = some (id, after)) :
    s = '$' :: lbrace :: id ++ rbrace :: after ∧ validIdent id = true := by
  match s with
  | [] => simp [scanPH] at h
  | [a] => simp [scanPH] at h
  | [a, b] => simp [scanPH] at h
  | a :: b :: c :: rest =>
    rw [scanPH] at h
    split at h
    · rename_i hg
      obtain ⟨ha, hb, hc⟩ := hg
      subst ha; subst hb
      split at h
      · rename_i d aft hdw
        split at h
        · rename_i hd
          subst hd
          obtain ⟨hid, haft⟩ := Prod.mk.injEq .. ▸ Option.some.injEq .. ▸ h
          constructor
          · subst hid; subst haft
            have hrest : rest = rest.takeWhile isIdentCont ++ rbrace :: aft := by
              conv_lhs => rw [← List.takeWhile_append_dropWhile isIdentCont rest]
              rw [hdw]
            conv_lhs => rw [hrest]
            simp
          · subst hid
            simp only [validIdent, hc, Bool.true_and]
            exact List.all_eq_true.2 (fun c hc => List.mem_takeWhile_imp hc)
        · exact absurd h (by simp)
      · exact absurd h (by simp)
    · exact absurd h (by simp)

theorem scanPH_length {s id after : List Char} (h : scanPH s = some (id, after)) :
    after.length < s.length := by
  have hs := (scanPH_shape h).1
  subst hs
  simp [List.length_append]
  omega

theorem renderGo_nil (vars : List (String × String)) (fuel : Nat) :
    renderGo vars fuel [] = [] := by
  cases fuel <;> simp [renderGo, scanPH]

theorem renderGo_congr (vars : List (String × String)) :
    ∀ f1 f2 s, s.length ≤ f1 → s.length ≤ f2 → renderGo vars f1 s = renderGo vars f2 s := by
  intro f1
  induction f1 with
  | zero =>
    intro f2 s h1 _
    have : s = [] := List.length_eq_zero.1 (Nat.le_zero.1 h1)
    subst this
    rw [renderGo_nil, renderGo_nil]
  | succ f ih =>
    intro f2 s h1 h2
    match s with
    | [] => rw [renderGo_nil, renderGo_nil]
    | c :: rest =>
      obtain ⟨f2p, rfl⟩ : ∃ k, f2 = k + 1 := ⟨f2 - 1, by simp at h2; omega⟩
      rw [renderGo, renderGo]
      cases hscan : scanPH (c :: rest) with
      | some pr =>
        obtain ⟨id, after⟩ := pr
        have hlt : after.length < (c :: rest).length := scanPH_length hscan
        simp only [List.length_cons] at h1 h2 hlt
        dsimp only
        rw [ih f2p after (by omega) (by omega)]
      | none =>
        simp only [List.length_cons] at h1 h2
        dsimp only
        rw [ih f2p rest (by omega) (by omega)]

theorem renderList_scan_some {vars : List (String × String)} {s id after : List Char}
    (h : scanPH s = some (id, after)) :
    renderList vars s =
      (match lookupVar vars (String.mk id) with
       | some v => v.data
       | none => '$' :: lbrace :: (id ++ [rbrace])) ++ renderList vars after := by
  match s with
  | [] => simp [scanPH] at h
  | c :: rest =>
    have hlt : after.length < (c :: rest).length := scanPH_length h
    show renderGo vars (rest.length + 1) (c :: rest) = _
    rw [renderGo, h]
    simp only []
    rw [renderGo_congr vars rest.length after.length after (by simp at hlt; omega) (by rfl)]
    rfl

theorem renderList_scan_none {vars : List (String × String)} {c : Char} {rest : List Char}
    (h : scanPH (c :: rest) = none) :
    renderList vars (c :: rest) = c :: renderList vars rest := by
  show renderGo vars (rest.length + 1) (c :: rest) = _
  rw [renderGo, h]
  rfl

/-! ### The byte-wise lexicographic order -/

theorem lexLe_total : ∀ a b : List Char, lexLe a b = true ∨ lexLe b a = true := by
  intro a
  induction a with
  | nil => intro b; exact Or.inl (by simp [lexLe])
  | cons x as ih =>
    intro b
    match b with
    | [] => exact Or.inr (by simp [lexLe])
    | y :: bs =>
      rcases lt_trichotomy x y with h | h | h
      · exact Or.inl (by simp [lexLe, h])
      · subst h
        rcases ih bs with h | h
        · exact Or.inl (by simp [lexLe, h])
        · exact Or.inr (by simp [lexLe, h])
      · exact Or.inr (by simp [lexLe, h])

theorem lexLe_trans : ∀ a b c : List Char,
    lexLe a b = true → lexLe b c = true → lexLe a c = true := by
  intro a
  induction a with
  | nil => intro b c _ _; simp [lexLe]
  | cons x as ih =>
    intro b c h1 h2
    match b, c with
    | [], _ => simp [lexLe] at h1
    | _ :: _, [] => simp [lexLe] at h2
    | y :: bs, z :: cs =>
      simp only [lexLe, Bool.or_eq_true, Bool.and_eq_true, decide_eq_true_eq] at h1 h2 ⊢
      rcases h1 with h1 | ⟨rfl, h1⟩
      · rcases h2 with h2 | ⟨rfl, h2⟩
        · exact Or.inl (lt_trans h1 h2)
        · exact Or.inl h1
      · rcases h2 with h2 | ⟨rfl, h2⟩
        · exact Or.inl h2
        · exact Or.inr ⟨rfl, ih bs cs h1 h2⟩

theorem lexLt_of_le_of_ne : ∀ a b : List Char,
    lexLe a b = true → a ≠ b → lexLt a b = true := by
  intro a
  induction a with
  | nil =>
    intro b _ hne
    match b with
    | [] => exact absurd rfl hne
    | y :: bs => simp [lexLt]
  | cons x as ih =>
    intro b hle hne
    match b with
    | [] => simp [lexLe] at hle
    | y :: bs =>
      simp only [lexLe, Bool.or_eq_true, Bool.and_eq_true, decide_eq_true_eq] at hle
      simp only [lexLt, Bool.or_eq_true, Bool.and_eq_true, decide_eq_true_eq]
      rcases hle with h | ⟨rfl, h⟩
      · exact Or.inl h
      · refine Or.inr ⟨rfl, ih bs h ?_⟩
        intro hEq
        exact hne (by rw [hEq])

instance : IsTotal MigFile fileLe :=
  ⟨fun a b => lexLe_total a.filename.data b.filename.data⟩

instance : IsTrans MigFile fileLe :=
  ⟨fun _ _ _ h1 h2 => lexLe_trans _ _ _ h1 h2⟩

theorem string_data_inj {s t : String} (h : s.data = t.data) : s = t := by
  cases s
  cases t
  exact congrArg String.mk (by simpa using h)

theorem globSql_sorted (dir : List MigFile) : (globSql dir).Pairwise fileLe :=
  List.sorted_insertionSort fileLe _

/-! ### `get_pending_migrations` -/

theorem pendingScan_fst (applied : String → Option LedgerEntry) :
    ∀ l : List Migration,
      (pendingScan applied l).1 = l.filter (fun m => (applied m.filename).isNone) := by
  intro l
  induction l with
  | nil => rfl
  | cons m rest ih =>
    rw [pendingScan]
    cases h : applied m.filename with
    | none => simp [List.filter_cons, h, ih]
    | some e =>
      by_cases hc : e.checksum = m.checksum
      · simp [List.filter_cons, h, hc, ih]
      · simp [List.filter_cons, h, hc, ih]

theorem pendingScan_warn (applied : String → Option LedgerEntry) :
    ∀ (l : List Migration) (m : Migration) (e : LedgerEntry), m ∈ l →
      applied m.filename = some e → e.checksum ≠ m.checksum →
      m.filename ∈ (pendingScan applied l).2 := by
  intro l
  induction l with
  | nil => intro m e hm; exact absurd hm (List.not_mem_nil m)
  | cons m0 rest ih =>
    intro m e hm ha hc
    rcases List.mem_cons.1 hm with rfl | hm
    · rw [pendingScan, ha]
      dsimp only
      rw [if_neg hc]
      exact List.mem_cons_self _ _
    · have hrec := ih m e hm ha hc
      rw [pendingScan]
      cases h0 : applied m0.filename with
      | none => dsimp only; exact hrec
      | some e0 =>
        dsimp only
        by_cases hc0 : e0.checksum = m0.checksum
        · rw [if_pos hc0]; exact hrec
        · rw [if_neg hc0]; exact List.mem_cons_of_mem _ hrec

theorem pending_applied_none {dir : List MigFile} {ledger : List LedgerEntry}
    {m : Migration} (h : m ∈ (get_pending_migrations dir ledger).1) :
    get_applied_migrations ledger m.filename = none := by
  rw [get_pending_migrations, pendingScan_fst] at h
  exact Option.isNone_iff_eq_none.1 ((List.mem_filter.1 h).2)

/-! ### Claim C1 -/

/-- Claim C1, as stated, is false on the code: the claim subtracts only the
ledger entries with matching checksum, but `get_pending_migrations`
excludes every filename present in the ledger.  With `a.sql` on disk at
checksum `ca` and a ledger row for `a.sql` recorded at checksum `zz`, the
claimed pending set contains `a.sql` while the computed pending set is
empty. -/
theorem c1_pending_set_counterexample :
    (get_pending_migrations [fA] [rowDrift]).1 ≠ claimPending [fA] [rowDrift] := by
  decide

/-- Claim C1 (amended): the pending set equals the on-disk `.sql` files
minus the ledger entries with matching filename (drifted entries are also
excluded), and, when the directory has no duplicate filenames, the pending
list is strictly increasing in byte-wise lexicographic filename order. -/
theorem c1_pending_set (dir : List MigFile) (ledger : List LedgerEntry)
    (hN : ((globSql dir).map (fun f => f.filename)).Nodup) :
    (get_pending_migrations dir ledger).1
      = ((globSql dir).map Migration.from_file).filter
          (fun m => (get_applied_migrations ledger m.filename).isNone)
    ∧ (get_pending_migrations dir ledger).1.Pairwise migLt := by
  have hfst : (get_pending_migrations dir ledger).1
      = ((globSql dir).map Migration.from_file).filter
          (fun m => (get_applied_migrations ledger m.filename).isNone) :=
    pendingScan_fst _ _
  refine ⟨hfst, ?_⟩
  have hle : ((globSql dir).map Migration.from_file).Pairwise
      (fun a b : Migration => lexLe a.filename.data b.filename.data = true) :=
    List.pairwise_map.2 (globSql_sorted dir)
  have hne : ((globSql dir).map Migration.from_file).Pairwise
      (fun a b : Migration => a.filename ≠ b.filename) :=
    List.pairwise_map.2 (List.pairwise_map.1 hN)
  have hstrict : ((globSql dir).map Migration.from_file).Pairwise migLt :=
    (hle.and hne).imp (fun h =>
      lexLt_of_le_of_ne _ _ h.1 (fun hd => h.2 (string_data_inj hd)))
  rw [hfst]
  exact hstrict.filter _

/-- Witness for C1 at a concrete directory and ledger: `a.sql` is ledgered
(with a drifted checksum) and `b.sql` is pending. -/
theorem c1_pending_set_witness :
    (get_pending_migrations [fA, fB] [rowDrift]).1
      = ((globSql [fA, fB]).map Migration.from_file).filter
          (fun m => (get_applied_migrations [rowDrift] m.filename).isNone)
    ∧ (get_pending_migrations [fA, fB] [rowDrift]).1.Pairwise migLt :=
  c1_pending_set [fA, fB] [rowDrift] (by decide)

/-! ### Claim C2 -/

/-- Claim C2 is right about the intent but the code violates it: a dry-run
`migrate` against an absent target database still creates the database,
because `ensure_database_exists` runs unconditionally before the dry-run
flag is consulted.  At the failing input (dry-run, absent database) the
trace is exactly `CREATE DATABASE` followed by the connect: the freshly
created database has no ledger table, so the dry run then raises from the
`SELECT` inside `get_applied_migrations` and propagates out without
reaching `close`.  The claim's remaining guarantees do hold there: no
ledger-table creation or ledger write and no migration, seed or callback
SQL appears in the trace. -/
theorem c2_dry_run_creates_database :
    (migrate wAbsentDb true).1 = RunResult.exn
    ∧ (migrate wAbsentDb true).2.2 = [Event.createDatabase, Event.connect] := by
  decide

/-! ### The apply loop -/

theorem apply_migration_run (w : World) (ledger : List LedgerEntry) (m : Migration) :
    apply_migration w false ledger m =
      (w.execOk m.filename, ledger ++ [ledgerRow w ledger m],
        applyEvents m.filename (w.execOk m.filename)) := rfl

theorem runPending_cons_ok {w : World} {m : Migration} (ledger : List LedgerEntry)
    (rest : List Migration) (h : w.execOk m.filename = true) :
    runPending w false ledger (m :: rest) =
      ((runPending w false (ledger ++ [ledgerRow w ledger m]) rest).1,
       (runPending w false (ledger ++ [ledgerRow w ledger m]) rest).2.1,
       applyEvents m.filename true ++
         (runPending w false (ledger ++ [ledgerRow w ledger m]) rest).2.2) := by
  rw [runPending]
  simp [apply_migration_run, h]

theorem runPending_cons_fail {w : World} {m : Migration} (ledger : List LedgerEntry)
    (rest : List Migration) (h : w.execOk m.filename = false) :
    runPending w false ledger (m :: rest) =
      (false, ledger ++ [ledgerRow w ledger m], applyEvents m.filename false) := by
  rw [runPending]
  simp [apply_migration_run, h]

theorem mem_applyEvents {e : Event} {g : String} {ok : Bool} (h : e ∈ applyEvents g ok) :
    e = Event.execScript g ∨ e = Event.insertLedger g ok ∨
      e = Event.commit ∨ e = Event.rollback := by
  cases ok <;> simp [applyEvents] at h <;> tauto

theorem countExec_append (f : String) (l1 l2 : List Event) :
    countExec f (l1 ++ l2) = countExec f l1 + countExec f l2 := by
  simp [countExec, List.filter_append]

theorem countIns_append (f : String) (l1 l2 : List Event) :
    countIns f (l1 ++ l2) = countIns f l1 + countIns f l2 := by
  simp [countIns, List.filter_append]

theorem countExec_applyEvents (f g : String) (ok : Bool) :
    countExec f (applyEvents g ok) = if g = f then 1 else 0 := by
  by_cases h : g = f <;> cases ok <;>
    simp [applyEvents, countExec, isExecFor, h]

theorem countIns_applyEvents (f g : String) (ok : Bool) :
    countIns f (applyEvents g ok) = if g = f then 1 else 0 := by
  by_cases h : g = f <;> cases ok <;>
    simp [applyEvents, countIns, isInsertFor, h]

theorem runPending_counts_eq (w : World) (f : String) :
    ∀ (ms : List Migration) (ledger : List LedgerEntry),
      countExec f (runPending w false ledger ms).2.2 =
        countIns f (runPending w false ledger ms).2.2 := by
  intro ms
  induction ms with
  | nil => intro ledger; rfl
  | cons m rest ih =>
    intro ledger
    by_cases hok : w.execOk m.filename = true
    · rw [runPending_cons_ok ledger rest hok]
      simp only [countExec_append, countIns_append, countExec_applyEvents,
        countIns_applyEvents, ih]
    · rw [runPending_cons_fail ledger rest (Bool.not_eq_true _ ▸ hok)]
      simp only [countExec_applyEvents, countIns_applyEvents]

theorem runPending_countExec_zero (w : World) (f : String) :
    ∀ (ms : List Migration) (ledger : List LedgerEntry),
      f ∉ ms.map (fun m => m.filename) →
      countExec f (runPending w false ledger ms).2.2 = 0 := by
  intro ms
  induction ms with
  | nil => intro ledger _; rfl
  | cons m rest ih =>
    intro ledger hf
    simp only [List.map_cons, List.mem_cons, not_or] at hf
    by_cases hok : w.execOk m.filename = true
    · rw [runPending_cons_ok ledger rest hok]
      simp only [countExec_append, countExec_applyEvents,
        if_neg (Ne.symm hf.1), ih _ (by simpa using hf.2), Nat.add_zero]
    · rw [runPending_cons_fail ledger rest (Bool.not_eq_true _ ▸ hok)]
      simp only [countExec_applyEvents, if_neg (Ne.symm hf.1)]

theorem runPending_countExec_le_one (w : World) (f : String) :
    ∀ (ms : List Migration) (ledger : List LedgerEntry),
      (ms.map (fun m => m.filename)).Nodup →
      countExec f (runPending w false ledger ms).2.2 ≤ 1 := by
  intro ms
  induction ms with
  | nil => intro ledger _; exact Nat.zero_le 1
  | cons m rest ih =>
    intro ledger hN
    simp only [List.map_cons, List.nodup_cons] at hN
    by_cases hok : w.execOk m.filename = true
    · rw [runPending_cons_ok ledger rest hok]
      rw [countExec_append, countExec_applyEvents]
      by_cases hf : m.filename = f
      · subst hf
        rw [if_pos rfl, runPending_countExec_zero w _ rest _ hN.1]
      · rw [if_neg hf, Nat.zero_add]
        exact ih _ hN.2
    · rw [runPending_cons_fail ledger rest (Bool.not_eq_true _ ▸ hok)]
      rw [countExec_applyEvents]
      split <;> omega

theorem runPending_insert_flag (w : World) :
    ∀ (ms : List Migration) (ledger : List LedgerEntry) (f : String) (s : Bool),
      Event.insertLedger f s ∈ (runPending w false ledger ms).2.2 → s = w.execOk f := by
  intro ms
  induction ms with
  | nil => intro ledger f s h; exact absurd h (List.not_mem_nil _)
  | cons m rest ih =>
    intro ledger f s h
    by_cases hok : w.execOk m.filename = true
    · rw [runPending_cons_ok ledger rest hok] at h
      rcases List.mem_append.1 h with h | h
      · rcases mem_applyEvents h with h | h | h | h
        · exact absurd h (by simp)
        · obtain ⟨rfl, rfl⟩ : f = m.filename ∧ s = true := by
            injection h with h1 h2
            exact ⟨h1, h2⟩
          exact hok.symm
        · exact absurd h (by simp)
        · exact absurd h (by simp)
      · exact ih _ f s h
    · rw [runPending_cons_fail ledger rest (Bool.not_eq_true _ ▸ hok)] at h
      dsimp only at h
      rcases mem_applyEvents h with h | h | h | h
      · exact absurd h (by simp)
      · obtain ⟨rfl, rfl⟩ : f = m.filename ∧ s = false := by
          injection h with h1 h2
          exact ⟨h1, h2⟩
        exact (Bool.not_eq_true _ ▸ hok : w.execOk m.filename = false).symm
      · exact absurd h (by simp)
      · exact absurd h (by simp)

theorem runPending_block (w : World) :
    ∀ (ms : List Migration) (ledger : List LedgerEntry) (f : String),
      (Event.execScript f ∈ (runPending w false ledger ms).2.2 ∨
        ∃ s, Event.insertLedger f s ∈ (runPending w false ledger ms).2.2) →
      ∃ l1 l2, (runPending w false ledger ms).2.2 =
        l1 ++ applyEvents f (w.execOk f) ++ l2 := by
  intro ms
  induction ms with
  | nil =>
    intro ledger f h
    rcases h with h | ⟨s, h⟩ <;> exact absurd h (List.not_mem_nil _)
  | cons m rest ih =>
    intro ledger f h
    by_cases hok : w.execOk m.filename = true
    · rw [runPending_cons_ok ledger rest hok] at h ⊢
      have hcase : f = m.filename ∨
          (Event.execScript f ∈ (runPending w false (ledger ++ [ledgerRow w ledger m]) rest).2.2 ∨
            ∃ s, Event.insertLedger f s ∈
              (runPending w false (ledger ++ [ledgerRow w ledger m]) rest).2.2) := by
        rcases h with h | ⟨s, h⟩
        · rcases List.mem_append.1 h with h | h
          · rcases mem_applyEvents h with h | h | h | h
            · exact Or.inl (by injection h)
            · exact absurd h (by simp)
            · exact absurd h (by simp)
            · exact absurd h (by simp)
          · exact Or.inr (Or.inl h)
        · rcases List.mem_append.1 h with h | h
          · rcases mem_applyEvents h with h | h | h | h
            · exact absurd h (by simp)
            · exact Or.inl (by injection h)
            · exact absurd h (by simp)
            · exact absurd h (by simp)
          · exact Or.inr (Or.inr ⟨s, h⟩)
      rcases hcase with rfl | hrest
      · refine ⟨[], (runPending w false (ledger ++ [ledgerRow w ledger m]) rest).2.2, ?_⟩
        simp [hok]
      · obtain ⟨l1, l2, heq⟩ := ih _ f hrest
        exact ⟨applyEvents m.filename true ++ l1, l2, by rw [heq]; simp⟩
    · have hfail : w.execOk m.filename = false := Bool.not_eq_true _ ▸ hok
      rw [runPending_cons_fail ledger rest hfail] at h ⊢
      dsimp only at h
      have hf : f = m.filename := by
        rcases h with h | ⟨s, h⟩
        · rcases mem_applyEvents h with h | h | h | h
          · exact by injection h
          · exact absurd h (by simp)
          · exact absurd h (by simp)
          · exact absurd h (by simp)
        · rcases mem_applyEvents h with h | h | h | h
          · exact absurd h (by simp)
          · exact by injection h
          · exact absurd h (by simp)
          · exact absurd h (by simp)
      subst hf
      refine ⟨[], [], ?_⟩
      simp [hfail]

theorem execNames_append (l1 l2 : List Event) :
    execNames (l1 ++ l2) = execNames l1 ++ execNames l2 := by
  simp [execNames, List.filterMap_append]

theorem execNames_applyEvents (g : String) (ok : Bool) :
    execNames (applyEvents g ok) = [g] := by
  cases ok <;> rfl

theorem runPending_execNames (w : World) :
    ∀ (ms : List Migration) (ledger : List LedgerEntry),
      execNames (runPending w false ledger ms).2.2 =
        execUpToFail w.execOk (ms.map (fun m => m.filename)) := by
  intro ms
  induction ms with
  | nil => intro ledger; rfl
  | cons m rest ih =>
    intro ledger
    by_cases hok : w.execOk m.filename = true
    · rw [runPending_cons_ok ledger rest hok, execNames_append, execNames_applyEvents]
      rw [List.map_cons, execUpToFail, if_pos hok, ih]
      rfl
    · have hfail : w.execOk m.filename = false := Bool.not_eq_true _ ▸ hok
      rw [runPending_cons_fail ledger rest hfail, execNames_applyEvents]
      rw [List.map_cons, execUpToFail, if_neg (by rw [hfail]; exact Bool.false_ne_true)]

theorem execUpToFail_halt (okf : String → Bool) :
    ∀ (l1 : List String) (l2 l3 : List String) (bn cn : String), okf bn = false →
      (l1 ++ bn :: (l2 ++ cn :: l3)).Nodup →
      cn ∉ execUpToFail okf (l1 ++ bn :: (l2 ++ cn :: l3)) := by
  intro l1
  induction l1 with
  | nil =>
    intro l2 l3 bn cn hfail hN
    simp only [List.nil_append] at hN ⊢
    rw [execUpToFail, if_neg (by rw [hfail]; exact Bool.false_ne_true)]
    intro hmem
    have : cn = bn := by simpa using hmem
    subst this
    have := (List.nodup_cons.1 hN).1
    exact this (by simp)
  | cons a l1' ih =>
    intro l2 l3 bn cn hfail hN
    simp only [List.cons_append] at hN ⊢
    have hN' := List.nodup_cons.1 hN
    by_cases ha : okf a = true
    · rw [execUpToFail, if_pos ha]
      intro hmem
      rcases List.mem_cons.1 hmem with rfl | hmem
      · exact hN'.1 (by simp)
      · exact ih l2 l3 bn cn hfail hN'.2 hmem
    · rw [execUpToFail, if_neg ha]
      intro hmem
      have : cn = a := by simpa using hmem
      subst this
      exact hN'.1 (by simp)

theorem runPending_ledger (w : World) :
    ∀ (ms : List Migration) (ledger : List LedgerEntry),
      ∃ ex, (runPending w false ledger ms).2.1 = ledger ++ ex ∧
        ∀ e ∈ ex, ∃ m ∈ ms, e.script = m.filename := by
  intro ms
  induction ms with
  | nil => intro ledger; exact ⟨[], by simp [runPending], by simp⟩
  | cons m rest ih =>
    intro ledger
    by_cases hok : w.execOk m.filename = true
    · obtain ⟨ex, heq, hsc⟩ := ih (ledger ++ [ledgerRow w ledger m])
      refine ⟨[ledgerRow w ledger m] ++ ex, ?_, ?_⟩
      · rw [runPending_cons_ok ledger rest hok]
        rw [heq]
        simp
      · intro e he
        rcases List.mem_append.1 he with he | he
        · have : e = ledgerRow w ledger m := by simpa using he
          subst this
          exact ⟨m, List.mem_cons_self _ _, rfl⟩
        · obtain ⟨m', hm', hsc'⟩ := hsc e he
          exact ⟨m', List.mem_cons_of_mem _ hm', hsc'⟩
    · refine ⟨[ledgerRow w ledger m], ?_, ?_⟩
      · rw [runPending_cons_fail ledger rest (Bool.not_eq_true _ ▸ hok)]
      · intro e he
        have : e = ledgerRow w ledger m := by simpa using he
        subst this
        exact ⟨m, List.mem_cons_self _ _, rfl⟩

theorem runPending_ok_iff (w : World) :
    ∀ (ms : List Migration) (ledger : List LedgerEntry),
      (runPending w false ledger ms).1 = true ↔
        ∀ m ∈ ms, w.execOk m.filename = true := by
  intro ms
  induction ms with
  | nil => intro ledger; simp [runPending]
  | cons m rest ih =>
    intro ledger
    by_cases hok : w.execOk m.filename = true
    · rw [runPending_cons_ok ledger rest hok]
      constructor
      · intro h m' hm'
        rcases List.mem_cons.1 hm' with rfl | hm'
        · exact hok
        · exact (ih _).1 h m' hm'
      · intro h
        exact (ih _).2 (fun m' hm' => h m' (List.mem_cons_of_mem _ hm'))
    · rw [runPending_cons_fail ledger rest (Bool.not_eq_true _ ▸ hok)]
      constructor
      · intro h; exact absurd h Bool.false_ne_true
      · intro h; exact absurd (h m (List.mem_cons_self _ _)) hok

theorem runPending_complete (w : World) :
    ∀ (ms : List Migration) (ledger : List LedgerEntry),
      (runPending w false ledger ms).1 = true →
      ∀ m ∈ ms, ∃ e ∈ (runPending w false ledger ms).2.1, e.script = m.filename := by
  intro ms
  induction ms with
  | nil => intro ledger _ m hm; exact absurd hm (List.not_mem_nil _)
  | cons m0 rest ih =>
    intro ledger hrun m hm
    by_cases hok : w.execOk m0.filename = true
    · rw [runPending_cons_ok ledger rest hok] at hrun ⊢
      rcases List.mem_cons.1 hm with rfl | hm
      · obtain ⟨ex, heq, _⟩ := runPending_ledger w rest (ledger ++ [ledgerRow w ledger m])
        refine ⟨ledgerRow w ledger m, ?_, rfl⟩
        rw [heq]
        simp
      · exact ih _ hrun m hm
    · rw [runPending_cons_fail ledger rest (Bool.not_eq_true _ ▸ hok)] at hrun
      exact absurd hrun Bool.false_ne_true

/-! ### Callbacks and dry-run no-ops -/

theorem run_after_dry (w : World) : run_after_migrate_scripts w true = [] := by
  unfold run_after_migrate_scripts
  cases w.afterMigrateDir <;> rfl

theorem run_after_false_some {w : World} {d : List MigFile}
    (hd : w.afterMigrateDir = some d) :
    run_after_migrate_scripts w false = (globSql d).flatMap (cbBlock w) := by
  unfold run_after_migrate_scripts
  rw [hd]

theorem mem_run_after {w : World} {dr : Bool} {e : Event}
    (h : e ∈ run_after_migrate_scripts w dr) :
    (∃ n, e = Event.execCallback n) ∨ e = Event.commit ∨ e = Event.rollback := by
  cases dr with
  | true => rw [run_after_dry] at h; exact absurd h (List.not_mem_nil _)
  | false =>
    cases hd : w.afterMigrateDir with
    | none =>
      unfold run_after_migrate_scripts at h
      rw [hd] at h
      exact absurd h (List.not_mem_nil _)
    | some d =>
      rw [run_after_false_some hd] at h
      obtain ⟨f, _, he⟩ := List.mem_flatMap.1 h
      rcases List.mem_cons.1 he with rfl | he
      · exact Or.inl ⟨f.filename, rfl⟩
      · have he' : e = (if w.callbackOk f.filename then Event.commit else Event.rollback) := by
          simpa [cbBlock] using he
        by_cases hcb : w.callbackOk f.filename = true
        · rw [if_pos hcb] at he'
          exact Or.inr (Or.inl he')
        · rw [if_neg hcb] at he'
          exact Or.inr (Or.inr he')

theorem runPending_dry (w : World) :
    ∀ (ms : List Migration) (ledger : List LedgerEntry),
      runPending w true ledger ms = (true, ledger, []) := by
  intro ms
  induction ms with
  | nil => intro ledger; rfl
  | cons m rest ih =>
    intro ledger
    rw [runPending]
    simp [apply_migration, ih]

/-! ### Branch characterizations of `migrate` -/

theorem migrate_false_empty {w : World}
    (h : (get_pending_migrations w.migrationsDir w.ledger).1.isEmpty = true) :
    migrate w false =
      (RunResult.exit 0, w.afterRun false w.ledger,
        (if w.dbExists then [] else [Event.createDatabase]) ++ [Event.connect] ++
          [Event.createLedgerTable] ++
          (if w.dbExists then run_after_migrate_scripts w false else []) ++ [Event.close]) := by
  unfold migrate
  cases hdb : w.dbExists <;> simp [h, hdb]

theorem migrate_false_run_ok {w : World}
    (h : (get_pending_migrations w.migrationsDir w.ledger).1.isEmpty = false)
    (hok : (runPending w false w.ledger (get_pending_migrations w.migrationsDir w.ledger).1).1
      = true) :
    migrate w false =
      (RunResult.exit 0,
       w.afterRun false
         (runPending w false w.ledger (get_pending_migrations w.migrationsDir w.ledger).1).2.1,
       (if w.dbExists then [] else [Event.createDatabase]) ++ [Event.connect] ++
         [Event.createLedgerTable] ++
         (runPending w false w.ledger (get_pending_migrations w.migrationsDir w.ledger).1).2.2 ++
         run_after_migrate_scripts w false ++ [Event.close]) := by
  unfold migrate
  cases hdb : w.dbExists <;> simp [h, hok, hdb]

theorem migrate_false_run_fail {w : World}
    (h : (get_pending_migrations w.migrationsDir w.ledger).1.isEmpty = false)
    (hfail : (runPending w false w.ledger (get_pending_migrations w.migrationsDir w.ledger).1).1
      = false) :
    migrate w false =
      (RunResult.exit 1,
       w.afterRun false
         (runPending w false w.ledger (get_pending_migrations w.migrationsDir w.ledger).1).2.1,
       (if w.dbExists then [] else [Event.createDatabase]) ++ [Event.connect] ++
         [Event.createLedgerTable] ++
         (runPending w false w.ledger (get_pending_migrations w.migrationsDir w.ledger).1).2.2 ++
         [Event.close]) := by
  unfold migrate
  cases hdb : w.dbExists <;> simp [h, hfail, hdb]

theorem migrate_true_table {w : World} (ht : w.ledgerTableExists = true) :
    migrate w true =
      (RunResult.exit 0, w.afterRun true w.ledger,
        (if w.dbExists then [] else [Event.createDatabase]) ++ [Event.connect] ++
          [Event.close]) := by
  unfold migrate
  by_cases hpe : (get_pending_migrations w.migrationsDir w.ledger).1.isEmpty = true <;>
    cases hdb : w.dbExists <;>
      simp [ht, hpe, hdb, runPending_dry, run_after_dry]

theorem migrate_true_notable {w : World} (ht : w.ledgerTableExists = false) :
    migrate w true =
      (RunResult.exn, w.afterRun true w.ledger,
        (if w.dbExists then [] else [Event.createDatabase]) ++ [Event.connect]) := by
  unfold migrate
  cases hdb : w.dbExists <;> simp [ht, hdb]

/-- Every non-dry run's trace is the apply-loop trace surrounded by a
prefix of administrative events and a suffix of callback events plus the
final close. -/
theorem migrate_false_trace (w : World) :
    ∃ pre post,
      (migrate w false).2.2 =
        pre ++
          (runPending w false w.ledger
            (get_pending_migrations w.migrationsDir w.ledger).1).2.2 ++ post ∧
        (∀ e ∈ pre, e = Event.createDatabase ∨ e = Event.connect ∨
          e = Event.createLedgerTable) ∧
        (∀ e ∈ post, (∃ n, e = Event.execCallback n) ∨ e = Event.commit ∨
          e = Event.rollback ∨ e = Event.close) := by
  have hpre : ∀ e ∈ (if w.dbExists then ([] : List Event) else [Event.createDatabase]) ++
      [Event.connect] ++ [Event.createLedgerTable],
      e = Event.createDatabase ∨ e = Event.connect ∨ e = Event.createLedgerTable := by
    intro e he
    cases hdb : w.dbExists <;> rw [hdb] at he <;> simp at he <;> tauto
  have hcb : ∀ e ∈ run_after_migrate_scripts w false,
      (∃ n, e = Event.execCallback n) ∨ e = Event.commit ∨
        e = Event.rollback ∨ e = Event.close := by
    intro e he
    rcases mem_run_after he with h | h | h
    · exact Or.inl h
    · exact Or.inr (Or.inl h)
    · exact Or.inr (Or.inr (Or.inl h))
  by_cases hpe : (get_pending_migrations w.migrationsDir w.ledger).1.isEmpty = true
  · refine ⟨(if w.dbExists then [] else [Event.createDatabase]) ++ [Event.connect] ++
      [Event.createLedgerTable],
      (if w.dbExists then run_after_migrate_scripts w false else []) ++ [Event.close],
      ?_, hpre, ?_⟩
    · rw [migrate_false_empty hpe]
      have hnil : (get_pending_migrations w.migrationsDir w.ledger).1 = [] :=
        List.isEmpty_iff.1 hpe
      rw [hnil]
      simp [runPending]
    · intro e he
      rcases List.mem_append.1 he with he | he
      · cases hdb : w.dbExists <;> rw [hdb] at he
        · simp at he
        · exact hcb e (by simpa using he)
      · have : e = Event.close := by simpa using he
        exact Or.inr (Or.inr (Or.inr this))
  · have hpe' : (get_pending_migrations w.migrationsDir w.ledger).1.isEmpty = false :=
      Bool.not_eq_true _ ▸ hpe
    by_cases hok : (runPending w false w.ledger
        (get_pending_migrations w.migrationsDir w.ledger).1).1 = true
    · refine ⟨(if w.dbExists then [] else [Event.createDatabase]) ++ [Event.connect] ++
        [Event.createLedgerTable],
        run_after_migrate_scripts w false ++ [Event.close], ?_, hpre, ?_⟩
      · rw [migrate_false_run_ok hpe' hok]
        simp only [List.append_assoc]
      · intro e he
        rcases List.mem_append.1 he with he | he
        · exact hcb e he
        · have : e = Event.close := by simpa using he
          exact Or.inr (Or.inr (Or.inr this))
    · have hfail : (runPending w false w.ledger
          (get_pending_migrations w.migrationsDir w.ledger).1).1 = false :=
        Bool.not_eq_true _ ▸ hok
      refine ⟨(if w.dbExists then [] else [Event.createDatabase]) ++ [Event.connect] ++
        [Event.createLedgerTable], [Event.close], ?_, hpre, ?_⟩
      · rw [migrate_false_run_fail hpe' hfail]
      · intro e he
        have : e = Event.close := by simpa using he
        exact Or.inr (Or.inr (Or.inr this))

/-- The ledger left behind by a non-dry run is exactly the apply loop's
output ledger. -/
theorem migrate_false_ledger (w : World) :
    (migrate w false).2.1.ledger =
      (runPending w false w.ledger
        (get_pending_migrations w.migrationsDir w.ledger).1).2.1 := by
  by_cases hpe : (get_pending_migrations w.migrationsDir w.ledger).1.isEmpty = true
  · rw [migrate_false_empty hpe]
    have hnil : (get_pending_migrations w.migrationsDir w.ledger).1 = [] :=
      List.isEmpty_iff.1 hpe
    rw [hnil]
    rfl
  · have hpe' : (get_pending_migrations w.migrationsDir w.ledger).1.isEmpty = false :=
      Bool.not_eq_true _ ▸ hpe
    by_cases hok : (runPending w false w.ledger
        (get_pending_migrations w.migrationsDir w.ledger).1).1 = true
    · rw [migrate_false_run_ok hpe' hok]
      rfl
    · rw [migrate_false_run_fail hpe' (Bool.not_eq_true _ ▸ hok)]
      rfl

/-! ### Glue facts about traces and pending names -/

theorem count_zero {p : Event → Bool} :
    ∀ {l : List Event}, (∀ e ∈ l, p e = false) → (l.filter p).length = 0 := by
  intro l
  induction l with
  | nil => intro _; rfl
  | cons e rest ih =>
    intro h
    rw [List.filter_cons, h e (List.mem_cons_self _ _)]
    simpa using ih (fun x hx => h x (List.mem_cons_of_mem _ hx))

theorem countExec_zero_pre {f : String} {l : List Event}
    (hl : ∀ e ∈ l, e = Event.createDatabase ∨ e = Event.connect ∨
      e = Event.createLedgerTable) :
    countExec f l = 0 :=
  count_zero (fun e he => by rcases hl e he with rfl | rfl | rfl <;> rfl)

theorem countExec_zero_post {f : String} {l : List Event}
    (hl : ∀ e ∈ l, (∃ n, e = Event.execCallback n) ∨ e = Event.commit ∨
      e = Event.rollback ∨ e = Event.close) :
    countExec f l = 0 :=
  count_zero (fun e he => by rcases hl e he with ⟨n, rfl⟩ | rfl | rfl | rfl <;> rfl)

theorem countIns_zero_pre {f : String} {l : List Event}
    (hl : ∀ e ∈ l, e = Event.createDatabase ∨ e = Event.connect ∨
      e = Event.createLedgerTable) :
    countIns f l = 0 :=
  count_zero (fun e he => by rcases hl e he with rfl | rfl | rfl <;> rfl)

theorem countIns_zero_post {f : String} {l : List Event}
    (hl : ∀ e ∈ l, (∃ n, e = Event.execCallback n) ∨ e = Event.commit ∨
      e = Event.rollback ∨ e = Event.close) :
    countIns f l = 0 :=
  count_zero (fun e he => by rcases hl e he with ⟨n, rfl⟩ | rfl | rfl | rfl <;> rfl)

theorem exec_notin_pre {f : String} {l : List Event}
    (hl : ∀ e ∈ l, e = Event.createDatabase ∨ e = Event.connect ∨
      e = Event.createLedgerTable) :
    Event.execScript f ∉ l := fun hm => by
  rcases hl _ hm with h | h | h <;> simp at h

theorem exec_notin_post {f : String} {l : List Event}
    (hl : ∀ e ∈ l, (∃ n, e = Event.execCallback n) ∨ e = Event.commit ∨
      e = Event.rollback ∨ e = Event.close) :
    Event.execScript f ∉ l := fun hm => by
  rcases hl _ hm with ⟨n, h⟩ | h | h | h <;> simp at h

theorem ins_notin_pre {f : String} {s : Bool} {l : List Event}
    (hl : ∀ e ∈ l, e = Event.createDatabase ∨ e = Event.connect ∨
      e = Event.createLedgerTable) :
    Event.insertLedger f s ∉ l := fun hm => by
  rcases hl _ hm with h | h | h <;> simp at h

theorem ins_notin_post {f : String} {s : Bool} {l : List Event}
    (hl : ∀ e ∈ l, (∃ n, e = Event.execCallback n) ∨ e = Event.commit ∨
      e = Event.rollback ∨ e = Event.close) :
    Event.insertLedger f s ∉ l := fun hm => by
  rcases hl _ hm with ⟨n, h⟩ | h | h | h <;> simp at h

theorem mem_execNames {n : String} {evs : List Event}
    (h : Event.execScript n ∈ evs) : n ∈ execNames evs :=
  List.mem_filterMap.2 ⟨_, h, rfl⟩

theorem execUpToFail_subset (okf : String → Bool) :
    ∀ {l : List String} {x : String}, x ∈ execUpToFail okf l → x ∈ l := by
  intro l
  induction l with
  | nil => intro x h; exact absurd h (List.not_mem_nil _)
  | cons n rest ih =>
    intro x h
    rw [execUpToFail] at h
    by_cases hn : okf n = true
    · rw [if_pos hn] at h
      rcases List.mem_cons.1 h with rfl | h
      · exact List.mem_cons_self _ _
      · exact List.mem_cons_of_mem _ (ih h)
    · rw [if_neg hn] at h
      have : x = n := by simpa using h
      subst this
      exact List.mem_cons_self _ _

theorem pending_names_nodup {dir : List MigFile} (ledger : List LedgerEntry)
    (hN : ((globSql dir).map (fun f => f.filename)).Nodup) :
    ((get_pending_migrations dir ledger).1.map (fun m => m.filename)).Nodup := by
  have hfst : (get_pending_migrations dir ledger).1
      = ((globSql dir).map Migration.from_file).filter
          (fun m => (get_applied_migrations ledger m.filename).isNone) :=
    pendingScan_fst _ _
  rw [hfst]
  have hsub : List.Sublist
      (((globSql dir).map Migration.from_file).filter
        (fun m => (get_applied_migrations ledger m.filename).isNone))
      ((globSql dir).map Migration.from_file) :=
    List.filter_sublist _
  have hsub2 := hsub.map (fun m : Migration => m.filename)
  have hmm : ((globSql dir).map Migration.from_file).map (fun m : Migration => m.filename)
      = (globSql dir).map (fun f => f.filename) := by
    rw [List.map_map]
    rfl
  exact hN.sublist (hmm ▸ hsub2)

/-! ### Claim C3 -/

/-- Claim C3: in a non-dry run, if pending migration `b` fails then any
migration `c` ordered after `b` in the pending list is never executed in
that run: the loop halts at the first execution failure. -/
theorem c3_halt_on_failure (w : World)
    (hN : ((globSql w.migrationsDir).map (fun f => f.filename)).Nodup)
    (l1 l2 l3 : List Migration) (b c : Migration)
    (hdec : (get_pending_migrations w.migrationsDir w.ledger).1 = l1 ++ b :: (l2 ++ c :: l3))
    (hfail : w.execOk b.filename = false) :
    Event.execScript c.filename ∉ (migrate w false).2.2 := by
  intro hmem
  obtain ⟨pre, post, htr, hpre, hpost⟩ := migrate_false_trace w
  rw [htr] at hmem
  rcases List.mem_append.1 hmem with hmem | hmem
  · rcases List.mem_append.1 hmem with hmem | hmem
    · exact exec_notin_pre hpre hmem
    · have hnames := mem_execNames hmem
      rw [runPending_execNames] at hnames
      rw [hdec] at hnames
      simp only [List.map_append, List.map_cons] at hnames
      have hNodup : ((l1.map (fun m => m.filename)) ++ b.filename ::
          ((l2.map (fun m => m.filename)) ++ c.filename ::
            (l3.map (fun m => m.filename)))).Nodup := by
        have := pending_names_nodup w.ledger hN
        rw [hdec] at this
        simpa using this
      exact execUpToFail_halt w.execOk _ _ _ _ _ hfail hNodup hnames
  · exact exec_notin_post hpost hmem

/-- Witness for C3: with `a.sql` failing and `b.sql` after it, `b.sql` is
never executed. -/
theorem c3_halt_on_failure_witness :
    Event.execScript (Migration.from_file fB).filename ∉ (migrate wFailA false).2.2 :=
  c3_halt_on_failure wFailA (by decide) [] [] []
    (Migration.from_file fA) (Migration.from_file fB) (by decide) (by decide)

/-! ### Claim C4 -/

/-- Claim C4: in a non-dry run, each script gets exactly one ledger row
per execution attempt (equal counts, and at most one when the directory
has no duplicate filenames); the recorded success flag is true exactly
when the script's statements committed without error; and on failure the
rollback of the partial transaction happens immediately before the
`success = false` row is inserted. -/
theorem c4_ledger_rows (w : World) (f : String)
    (hN : ((globSql w.migrationsDir).map (fun g => g.filename)).Nodup) :
    (countIns f (migrate w false).2.2 = countExec f (migrate w false).2.2 ∧
      countIns f (migrate w false).2.2 ≤ 1) ∧
    (∀ s, Event.insertLedger f s ∈ (migrate w false).2.2 → s = w.execOk f) ∧
    (w.execOk f = false → Event.execScript f ∈ (migrate w false).2.2 →
      ∃ l1 l2, (migrate w false).2.2 =
        l1 ++ [Event.execScript f, Event.rollback, Event.insertLedger f false,
          Event.commit] ++ l2) := by
  obtain ⟨pre, post, htr, hpre, hpost⟩ := migrate_false_trace w
  have hcountIns : countIns f (migrate w false).2.2 =
      countIns f (runPending w false w.ledger
        (get_pending_migrations w.migrationsDir w.ledger).1).2.2 := by
    rw [htr, countIns_append, countIns_append, countIns_zero_pre hpre,
      countIns_zero_post hpost]
    omega
  have hcountExec : countExec f (migrate w false).2.2 =
      countExec f (runPending w false w.ledger
        (get_pending_migrations w.migrationsDir w.ledger).1).2.2 := by
    rw [htr, countExec_append, countExec_append, countExec_zero_pre hpre,
      countExec_zero_post hpost]
    omega
  refine ⟨⟨?_, ?_⟩, ?_, ?_⟩
  · rw [hcountIns, hcountExec, runPending_counts_eq]
  · rw [hcountIns, ← runPending_counts_eq]
    exact runPending_countExec_le_one w f _ _ (pending_names_nodup w.ledger hN)
  · intro s hmem
    rw [htr] at hmem
    rcases List.mem_append.1 hmem with hmem | hmem
    · rcases List.mem_append.1 hmem with hmem | hmem
      · exact absurd hmem (ins_notin_pre hpre)
      · exact runPending_insert_flag w _ _ f s hmem
    · exact absurd hmem (ins_notin_post hpost)
  · intro hfail hmem
    rw [htr] at hmem
    rcases List.mem_append.1 hmem with hmem | hmem
    · rcases List.mem_append.1 hmem with hmem | hmem
      · exact absurd hmem (exec_notin_pre hpre)
      · obtain ⟨l1, l2, heq⟩ := runPending_block w _ _ f (Or.inl hmem)
        refine ⟨pre ++ l1, l2 ++ post, ?_⟩
        rw [htr, heq, hfail]
        simp [applyEvents]
    · exact absurd hmem (exec_notin_post hpost)

/-- Witness for C4 at the failing migration `a.sql` of `wFailA`. -/
theorem c4_ledger_rows_witness :
    (countIns ("a.sql") (migrate wFailA false).2.2 =
        countExec ("a.sql") (migrate wFailA false).2.2 ∧
      countIns ("a.sql") (migrate wFailA false).2.2 ≤ 1) ∧
    (∀ s, Event.insertLedger ("a.sql") s ∈ (migrate wFailA false).2.2 →
      s = wFailA.execOk ("a.sql")) ∧
    (wFailA.execOk ("a.sql") = false →
      Event.execScript ("a.sql") ∈ (migrate wFailA false).2.2 →
      ∃ l1 l2, (migrate wFailA false).2.2 =
        l1 ++ [Event.execScript ("a.sql"), Event.rollback,
          Event.insertLedger ("a.sql") false, Event.commit] ++ l2) :=
  c4_ledger_rows wFailA ("a.sql") (by decide)

/-! ### Claim C10 -/

/-- Claim C10: whenever a `success = true` ledger row is recorded, the
script's own transaction was committed strictly before it, and the row is
committed by a separate second commit — never atomically with the script. -/
theorem c10_commit_before_record (w : World) (f : String)
    (hins : Event.insertLedger f true ∈ (migrate w false).2.2) :
    ∃ l1 l2, (migrate w false).2.2 =
      l1 ++ [Event.execScript f, Event.commit, Event.insertLedger f true,
        Event.commit] ++ l2 := by
  obtain ⟨pre, post, htr, hpre, hpost⟩ := migrate_false_trace w
  rw [htr] at hins
  rcases List.mem_append.1 hins with hins | hins
  · rcases List.mem_append.1 hins with hins | hins
    · exact absurd hins (ins_notin_pre hpre)
    · have hflag : true = w.execOk f := runPending_insert_flag w _ _ f true hins
      obtain ⟨l1, l2, heq⟩ := runPending_block w _ _ f (Or.inr ⟨true, hins⟩)
      refine ⟨pre ++ l1, l2 ++ post, ?_⟩
      rw [htr, heq, ← hflag]
      simp [applyEvents]
  · exact absurd hins (ins_notin_post hpost)

/-- Witness for C10 at `wTwoOk`, where `a.sql` succeeds. -/
theorem c10_commit_before_record_witness :
    ∃ l1 l2, (migrate wTwoOk false).2.2 =
      l1 ++ [Event.execScript ("a.sql"), Event.commit,
        Event.insertLedger ("a.sql") true, Event.commit] ++ l2 :=
  c10_commit_before_record wTwoOk ("a.sql") (by decide)

/-! ### Claim C5 -/

/-- Claim C5: an already-applied migration whose on-disk content changed
(recorded checksum differs from the current one) is reported as a drift
warning, excluded from the pending set, never re-executed, and its ledger
rows are left unchanged by the run. -/
theorem c5_drift_detection (w : World) (file : MigFile) (e : LedgerEntry)
    (hf : file ∈ globSql w.migrationsDir)
    (hl : get_applied_migrations w.ledger file.filename = some e)
    (hd : e.checksum ≠ file.checksum) :
    file.filename ∈ (get_pending_migrations w.migrationsDir w.ledger).2 ∧
    (∀ m ∈ (get_pending_migrations w.migrationsDir w.ledger).1,
      m.filename ≠ file.filename) ∧
    Event.execScript file.filename ∉ (migrate w false).2.2 ∧
    (migrate w false).2.1.ledger.filter (fun en => en.script == file.filename) =
      w.ledger.filter (fun en => en.script == file.filename) := by
  have hnp : ∀ m ∈ (get_pending_migrations w.migrationsDir w.ledger).1,
      m.filename ≠ file.filename := by
    intro m hm heq
    have := pending_applied_none hm
    rw [heq, hl] at this
    exact Option.noConfusion this
  refine ⟨?_, hnp, ?_, ?_⟩
  · exact pendingScan_warn _ _ (Migration.from_file file) e
      (List.mem_map_of_mem _ hf) hl hd
  · intro hmem
    obtain ⟨pre, post, htr, hpre, hpost⟩ := migrate_false_trace w
    rw [htr] at hmem
    rcases List.mem_append.1 hmem with hmem | hmem
    · rcases List.mem_append.1 hmem with hmem | hmem
      · exact exec_notin_pre hpre hmem
      · have hnames := mem_execNames hmem
        rw [runPending_execNames] at hnames
        have hin := execUpToFail_subset w.execOk hnames
        obtain ⟨m, hm, hfn⟩ := List.mem_map.1 hin
        exact hnp m hm hfn
    · exact exec_notin_post hpost hmem
  · rw [migrate_false_ledger]
    obtain ⟨ex, heq, hsc⟩ := runPending_ledger w
      (get_pending_migrations w.migrationsDir w.ledger).1 w.ledger
    rw [heq, List.filter_append]
    have hzero : ex.filter (fun en => en.script == file.filename) = [] := by
      rw [List.filter_eq_nil_iff]
      intro en hen
      obtain ⟨m, hm, hscr⟩ := hsc en hen
      simp only [beq_iff_eq, hscr]
      exact hnp m hm
    rw [hzero, List.append_nil]

/-- Witness for C5: in `wDrift`, `a.sql` is ledgered at checksum `zz` but
present on disk at checksum `ca`. -/
theorem c5_drift_detection_witness :
    fA.filename ∈ (get_pending_migrations wDrift.migrationsDir wDrift.ledger).2 ∧
    (∀ m ∈ (get_pending_migrations wDrift.migrationsDir wDrift.ledger).1,
      m.filename ≠ fA.filename) ∧
    Event.execScript fA.filename ∉ (migrate wDrift false).2.2 ∧
    (migrate wDrift false).2.1.ledger.filter (fun en => en.script == fA.filename) =
      wDrift.ledger.filter (fun en => en.script == fA.filename) :=
  c5_drift_detection wDrift fA rowDrift (by decide) (by decide) (by decide)

/-! ### Claim C6 -/

theorem afterRun_ledger (w : World) (d : Bool) (l : List LedgerEntry) :
    (World.afterRun w d l).ledger = l := rfl

theorem afterRun_dir (w : World) (d : Bool) (l : List LedgerEntry) :
    (World.afterRun w d l).migrationsDir = w.migrationsDir := rfl

theorem applied_isSome_iff (ledger : List LedgerEntry) (s : String) :
    (get_applied_migrations ledger s).isSome = true ↔ ∃ e ∈ ledger, e.script = s := by
  rw [get_applied_migrations]
  rw [List.find?_isSome]
  simp

/-- Claim C6, as it holds on the code: after a run that returns exit code 0
with the files unmodified, the second run has an empty pending set, leaves
the ledger unchanged, and inserts no ledger row. -/
theorem c6_second_run_noop (w : World)
    (hrun : (migrate w false).1 = RunResult.exit 0) :
    (get_pending_migrations ((migrate w false).2.1).migrationsDir
      ((migrate w false).2.1).ledger).1 = [] ∧
    (migrate (migrate w false).2.1 false).2.1.ledger = ((migrate w false).2.1).ledger ∧
    (∀ f s, Event.insertLedger f s ∉ (migrate (migrate w false).2.1 false).2.2) := by
  -- every discovered file is ledgered after a successful run
  have hall : ∀ m ∈ (globSql w.migrationsDir).map Migration.from_file,
      (get_applied_migrations ((migrate w false).2.1).ledger m.filename).isSome = true := by
    by_cases hpe : (get_pending_migrations w.migrationsDir w.ledger).1.isEmpty = true
    · intro m hm
      rw [migrate_false_empty hpe, afterRun_ledger]
      have hnil : (get_pending_migrations w.migrationsDir w.ledger).1 = [] :=
        List.isEmpty_iff.1 hpe
      rw [get_pending_migrations, pendingScan_fst] at hnil
      have := List.filter_eq_nil_iff.1 hnil m hm
      cases ho : get_applied_migrations w.ledger m.filename with
      | none => rw [ho] at this; exact absurd (by rfl) this
      | some e => rfl
    · have hpe' : (get_pending_migrations w.migrationsDir w.ledger).1.isEmpty = false :=
        Bool.not_eq_true _ ▸ hpe
      by_cases hok : (runPending w false w.ledger
          (get_pending_migrations w.migrationsDir w.ledger).1).1 = true
      · intro m hm
        rw [migrate_false_run_ok hpe' hok, afterRun_ledger]
        by_cases hp : (get_applied_migrations w.ledger m.filename).isSome = true
        · obtain ⟨e, he, hes⟩ := (applied_isSome_iff _ _).1 hp
          obtain ⟨ex, heq, _⟩ := runPending_ledger w
            (get_pending_migrations w.migrationsDir w.ledger).1 w.ledger
          rw [heq]
          exact (applied_isSome_iff _ _).2 ⟨e, List.mem_append.2 (Or.inl he), hes⟩
        · have hnone : get_applied_migrations w.ledger m.filename = none := by
            cases ho : get_applied_migrations w.ledger m.filename with
            | none => rfl
            | some e => rw [ho] at hp; exact absurd rfl hp
          have hmp : m ∈ (get_pending_migrations w.migrationsDir w.ledger).1 := by
            rw [get_pending_migrations, pendingScan_fst]
            exact List.mem_filter.2 ⟨hm, by rw [hnone]; rfl⟩
          obtain ⟨e, he, hes⟩ := runPending_complete w
            (get_pending_migrations w.migrationsDir w.ledger).1 w.ledger hok m hmp
          exact (applied_isSome_iff _ _).2 ⟨e, he, hes⟩
      · exfalso
        rw [migrate_false_run_fail hpe' (Bool.not_eq_true _ ▸ hok)] at hrun
        simp at hrun
  have hpending2 : (get_pending_migrations ((migrate w false).2.1).migrationsDir
      ((migrate w false).2.1).ledger).1 = [] := by
    have hdir : ((migrate w false).2.1).migrationsDir = w.migrationsDir := by
      by_cases hpe : (get_pending_migrations w.migrationsDir w.ledger).1.isEmpty = true
      · rw [migrate_false_empty hpe, afterRun_dir]
      · have hpe' : (get_pending_migrations w.migrationsDir w.ledger).1.isEmpty = false :=
          Bool.not_eq_true _ ▸ hpe
        by_cases hok : (runPending w false w.ledger
            (get_pending_migrations w.migrationsDir w.ledger).1).1 = true
        · rw [migrate_false_run_ok hpe' hok, afterRun_dir]
        · exfalso
          rw [migrate_false_run_fail hpe' (Bool.not_eq_true _ ▸ hok)] at hrun
          simp at hrun
    rw [hdir, get_pending_migrations, pendingScan_fst]
    apply List.filter_eq_nil_iff.2
    intro m hm
    have := hall m hm
    cases ho : get_applied_migrations ((migrate w false).2.1).ledger m.filename with
    | none => rw [ho] at this; exact absurd this (by simp)
    | some e => simp
  refine ⟨hpending2, ?_, ?_⟩
  · rw [migrate_false_ledger, hpending2]
    rfl
  · intro f s hmem
    obtain ⟨pre, post, htr, hpre, hpost⟩ := migrate_false_trace (migrate w false).2.1
    rw [htr, hpending2] at hmem
    rcases List.mem_append.1 hmem with hmem | hmem
    · rcases List.mem_append.1 hmem with hmem | hmem
      · exact absurd hmem (ins_notin_pre hpre)
      · exact absurd hmem (by rw [runPending]; exact List.not_mem_nil _)
    · exact absurd hmem (ins_notin_post hpost)

/-- Claim C6 as universally stated is false: if the first run fails
partway, the untouched later migrations are still pending on the second
run, which then applies them and inserts new ledger rows.  With `a.sql`
failing and `b.sql` succeeding, run 1 exits 1 with one ledger row; run 2
executes `b.sql` and grows the ledger to two rows. -/
theorem c6_second_run_counterexample :
    (migrate wFailA false).1 = RunResult.exit 1 ∧
    Event.insertLedger ("b.sql") true ∈ (migrate (migrate wFailA false).2.1 false).2.2 ∧
    ((migrate (migrate wFailA false).2.1 false).2.1).ledger.length = 2 ∧
    ((migrate wFailA false).2.1).ledger.length = 1 := by
  decide

/-- Witness for C6 on a fully successful first run. -/
theorem c6_second_run_noop_witness :
    (get_pending_migrations ((migrate wTwoOk false).2.1).migrationsDir
      ((migrate wTwoOk false).2.1).ledger).1 = [] ∧
    (migrate (migrate wTwoOk false).2.1 false).2.1.ledger =
      ((migrate wTwoOk false).2.1).ledger ∧
    (∀ f s, Event.insertLedger f s ∉ (migrate (migrate wTwoOk false).2.1 false).2.2) :=
  c6_second_run_noop wTwoOk (by decide)

/-! ### Claim C8 -/

/-- Whenever the callback stage is reached (all pending migrations
succeed, and either something was pending or the database already
existed), the run returns success and the callback events appear
contiguously in the trace. -/
theorem migrate_false_callbacks (w : World)
    (hsucc : ∀ m ∈ (get_pending_migrations w.migrationsDir w.ledger).1,
      w.execOk m.filename = true)
    (hreach : (get_pending_migrations w.migrationsDir w.ledger).1 ≠ [] ∨
      w.dbExists = true) :
    (migrate w false).1 = RunResult.exit 0 ∧
    ∃ A B, (migrate w false).2.2 = A ++ run_after_migrate_scripts w false ++ B := by
  by_cases hpe : (get_pending_migrations w.migrationsDir w.ledger).1.isEmpty = true
  · have hnil : (get_pending_migrations w.migrationsDir w.ledger).1 = [] :=
      List.isEmpty_iff.1 hpe
    have hdb : w.dbExists = true := by
      rcases hreach with h | h
      · exact absurd hnil h
      · exact h
    rw [migrate_false_empty hpe, hdb]
    exact ⟨rfl, (if true then [] else [Event.createDatabase]) ++ [Event.connect] ++
      [Event.createLedgerTable], [Event.close], by simp⟩
  · have hpe' : (get_pending_migrations w.migrationsDir w.ledger).1.isEmpty = false :=
      Bool.not_eq_true _ ▸ hpe
    have hok : (runPending w false w.ledger
        (get_pending_migrations w.migrationsDir w.ledger).1).1 = true :=
      (runPending_ok_iff w _ _).2 hsucc
    rw [migrate_false_run_ok hpe' hok]
    refine ⟨rfl, (if w.dbExists then [] else [Event.createDatabase]) ++ [Event.connect] ++
      [Event.createLedgerTable] ++
      (runPending w false w.ledger
        (get_pending_migrations w.migrationsDir w.ledger).1).2.2, [Event.close], ?_⟩
    simp

/-- Claim C8: a failing afterMigrate callback script is rolled back, but
every callback script in the directory is still executed and the overall
migrate invocation still returns success. -/
theorem c8_callback_isolation (w : World) (d : List MigFile) (g : MigFile)
    (hd : w.afterMigrateDir = some d)
    (hg : g ∈ globSql d)
    (hfail : w.callbackOk g.filename = false)
    (hsucc : ∀ m ∈ (get_pending_migrations w.migrationsDir w.ledger).1,
      w.execOk m.filename = true)
    (hreach : (get_pending_migrations w.migrationsDir w.ledger).1 ≠ [] ∨
      w.dbExists = true) :
    (migrate w false).1 = RunResult.exit 0 ∧
    (∀ g' ∈ globSql d, Event.execCallback g'.filename ∈ (migrate w false).2.2) ∧
    (∃ l1 l2, (migrate w false).2.2 =
      l1 ++ [Event.execCallback g.filename, Event.rollback] ++ l2) := by
  obtain ⟨hres, A, B, htr⟩ := migrate_false_callbacks w hsucc hreach
  refine ⟨hres, ?_, ?_⟩
  · intro g' hg'
    rw [htr, run_after_false_some hd]
    have hmid : Event.execCallback g'.filename ∈ (globSql d).flatMap (cbBlock w) :=
      List.mem_flatMap.2 ⟨g', hg', by simp [cbBlock]⟩
    exact List.mem_append.2 (Or.inl (List.mem_append.2 (Or.inr hmid)))
  · obtain ⟨la, lb, hsplit⟩ := List.append_of_mem hg
    have hblock : cbBlock w g = [Event.execCallback g.filename, Event.rollback] := by
      simp [cbBlock, hfail]
    refine ⟨A ++ la.flatMap (cbBlock w), lb.flatMap (cbBlock w) ++ B, ?_⟩
    rw [htr, run_after_false_some hd, hsplit, List.flatMap_append, List.flatMap_cons,
      hblock]
    simp

/-- Witness for C8: in `wCallbacks` the callback `cb1.sql` fails while
`cb2.sql` follows it. -/
theorem c8_callback_isolation_witness :
    (migrate wCallbacks false).1 = RunResult.exit 0 ∧
    (∀ g' ∈ globSql [cb1, cb2],
      Event.execCallback g'.filename ∈ (migrate wCallbacks false).2.2) ∧
    (∃ l1 l2, (migrate wCallbacks false).2.2 =
      l1 ++ [Event.execCallback cb1.filename, Event.rollback] ++ l2) :=
  c8_callback_isolation wCallbacks [cb1, cb2] cb1 (by decide) (by decide) (by decide)
    (by decide) (by decide)

/-! ### Claim C9 -/

/-- Claim C9, as stated, is false on the code: `migrate` has no
try/finally, so an exception propagating out of the run skips `close`.
Concretely, a dry run against a database whose ledger table does not yet
exist opens the working connection, then raises from the `SELECT` inside
`get_applied_migrations`, and the trace contains no `close`. -/
theorem c9_close_counterexample :
    (migrate wNoTable true).1 = RunResult.exn ∧
    Event.connect ∈ (migrate wNoTable true).2.2 ∧
    Event.close ∉ (migrate wNoTable true).2.2 := by
  decide

/-- Claim C9 (amended): on every path on which `migrate` returns an exit
code — success, or halting at a failed migration — the connection is
closed last; only the exceptional path skips `close`. -/
theorem c9_close_on_return (w : World) (dryRun : Bool)
    (h : ∃ c, (migrate w dryRun).1 = RunResult.exit c) :
    ((migrate w dryRun).2.2).getLast? = some Event.close := by
  cases dryRun with
  | true =>
    cases ht : w.ledgerTableExists with
    | false =>
      obtain ⟨c, hc⟩ := h
      rw [migrate_true_notable ht] at hc
      exact absurd hc (by simp)
    | true =>
      rw [migrate_true_table ht]
      exact List.getLast?_concat _
  | false =>
    by_cases hpe : (get_pending_migrations w.migrationsDir w.ledger).1.isEmpty = true
    · rw [migrate_false_empty hpe]
      exact List.getLast?_concat _
    · have hpe' : (get_pending_migrations w.migrationsDir w.ledger).1.isEmpty = false :=
        Bool.not_eq_true _ ▸ hpe
      by_cases hok : (runPending w false w.ledger
          (get_pending_migrations w.migrationsDir w.ledger).1).1 = true
      · rw [migrate_false_run_ok hpe' hok]
        exact List.getLast?_concat _
      · rw [migrate_false_run_fail hpe' (Bool.not_eq_true _ ▸ hok)]
        exact List.getLast?_concat _

/-- Witness for C9 on a normal successful run. -/
theorem c9_close_on_return_witness :
    ((migrate baseWorld false).2.2).getLast? = some Event.close :=
  c9_close_on_return baseWorld false ⟨0, by decide⟩

/-! ### Claim C7 -/

theorem string_mk_data (s : String) : String.mk s.data = s := by
  cases s
  rfl

theorem isIdentCont_dollar : isIdentCont '$' = false := by decide

theorem isIdentCont_rbrace : isIdentCont rbrace = false := by decide

theorem hasMatch_cons (c : Char) (rest : List Char) :
    hasMatch (c :: rest) = ((scanPH (c :: rest)).isSome || hasMatch rest) := rfl

theorem takeWhile_all_cont {p : Char → Bool} :
    ∀ (l : List Char) (x : Char) (r : List Char),
      (∀ c ∈ l, p c = true) → p x = false →
      (l ++ x :: r).takeWhile p = l ∧ (l ++ x :: r).dropWhile p = x :: r := by
  intro l
  induction l with
  | nil =>
    intro x r _ hx
    constructor
    · simp [List.takeWhile_cons, hx]
    · simp [List.dropWhile_cons, hx]
  | cons a l' ih =>
    intro x r hl hx
    have ha : p a = true := hl a (List.mem_cons_self _ _)
    have hrec := ih x r (fun c hc => hl c (List.mem_cons_of_mem _ hc)) hx
    constructor
    · simp only [List.cons_append, List.takeWhile_cons, ha, if_true]
      rw [hrec.1]
    · simp only [List.cons_append, List.dropWhile_cons, ha, if_true]
      exact hrec.2

theorem scanPH_at_placeholder {id suf : List Char} (hid : validIdent id = true) :
    scanPH ('$' :: lbrace :: (id ++ rbrace :: suf)) = some (id, suf) := by
  match id with
  | [] => exact absurd hid (by simp [validIdent])
  | c :: cs =>
    rw [validIdent, Bool.and_eq_true, List.all_eq_true] at hid
    have hspan := takeWhile_all_cont (p := isIdentCont) cs rbrace suf
      (fun x hx => hid.2 x hx) isIdentCont_rbrace
    show scanPH ('$' :: lbrace :: c :: (cs ++ rbrace :: suf)) = _
    rw [scanPH]
    rw [if_pos ⟨rfl, rfl, hid.1⟩]
    rw [hspan.2]
    dsimp only
    rw [if_pos rfl, hspan.1]

theorem scanPH_ext {q T : List Char} (hq : q ≠ [])
    (h : (scanPH (q ++ '$' :: T)).isSome = true) :
    (scanPH (q ++ ['$'])).isSome = true := by
  match q with
  | [] => exact absurd rfl hq
  | [a] =>
    exfalso
    match T with
    | [] =>
      have hs : scanPH ([a] ++ '$' :: ([] : List Char)) = none := rfl
      rw [hs] at h
      simp at h
    | c :: T' =>
      have hs : scanPH ([a] ++ '$' :: (c :: T')) = none := by
        show scanPH (a :: '$' :: c :: T') = none
        rw [scanPH]
        exact if_neg (fun hg => absurd hg.2.1 (by decide))
      rw [hs] at h
      simp at h
  | [a, b] =>
    exfalso
    have hs : scanPH ([a, b] ++ '$' :: T) = none := by
      show scanPH (a :: b :: '$' :: T) = none
      rw [scanPH]
      exact if_neg (fun hg => absurd hg.2.2 (by decide))
    rw [hs] at h
    simp at h
  | a :: b :: c :: q' =>
    rw [List.cons_append, List.cons_append, List.cons_append] at h ⊢
    rw [scanPH] at h
    split at h
    · rename_i hg
      obtain ⟨rfl, rfl, hc⟩ := hg
      cases hdw : (q'.dropWhile isIdentCont) with
      | nil =>
        exfalso
        have hdrop : (q' ++ '$' :: T).dropWhile isIdentCont = '$' :: T := by
          rw [List.dropWhile_append, hdw]
          simp [List.dropWhile_cons, isIdentCont_dollar]
        rw [hdrop] at h
        dsimp only at h
        rw [if_neg (by decide)] at h
        simp at h
      | cons d ds =>
        have hdrop : (q' ++ '$' :: T).dropWhile isIdentCont = d :: (ds ++ '$' :: T) := by
          rw [List.dropWhile_append, hdw]
          simp
        rw [hdrop] at h
        dsimp only at h
        have hd : d = rbrace := by
          by_cases hd : d = rbrace
          · exact hd
          · rw [if_neg hd] at h; simp at h
        rw [scanPH]
        rw [if_pos ⟨rfl, rfl, hc⟩]
        have hdrop2 : (q' ++ ['$']).dropWhile isIdentCont = d :: (ds ++ ['$']) := by
          rw [List.dropWhile_append, hdw]
          simp
        rw [hdrop2]
        dsimp only
        rw [if_pos hd]
        rfl
    · simp at h

theorem renderList_splice (vars : List (String × String)) :
    ∀ (p : List Char), ∀ {id suf : List Char},
      hasMatch (p ++ ['$']) = false → validIdent id = true →
      renderList vars (p ++ '$' :: lbrace :: (id ++ rbrace :: suf)) =
        p ++ (match lookupVar vars (String.mk id) with
              | some v => v.data
              | none => '$' :: lbrace :: (id ++ [rbrace])) ++ renderList vars suf := by
  intro p
  induction p with
  | nil =>
    intro id suf _ hid
    rw [List.nil_append, renderList_scan_some (scanPH_at_placeholder hid)]
    rw [List.nil_append]
  | cons a p' ih =>
    intro id suf hnm hid
    rw [List.cons_append, hasMatch_cons, Bool.or_eq_false_iff] at hnm
    have hscan : scanPH (a :: (p' ++ '$' :: lbrace :: (id ++ rbrace :: suf))) = none := by
      cases hs : scanPH (a :: (p' ++ '$' :: lbrace :: (id ++ rbrace :: suf))) with
      | none => rfl
      | some pr =>
        exfalso
        have h2 : (scanPH ((a :: p') ++ '$' :: (lbrace :: (id ++ rbrace :: suf)))).isSome
            = true := by
          rw [List.cons_append, hs]
          rfl
        have h3 := scanPH_ext (q := a :: p') (by simp) h2
        rw [List.cons_append, hnm.1] at h3
        simp at h3
    rw [List.cons_append, renderList_scan_none hscan]
    rw [ih hnm.2 hid]
    rfl

theorem renderList_no_match (vars : List (String × String)) :
    ∀ s : List Char, hasMatch s = false → renderList vars s = s := by
  intro s
  induction s with
  | nil => intro _; rfl
  | cons c rest ih =>
    intro h
    rw [hasMatch_cons, Bool.or_eq_false_iff] at h
    have hscan : scanPH (c :: rest) = none := by
      cases hs : scanPH (c :: rest) with
      | none => rfl
      | some pr => rw [hs] at h; exact absurd h.1 (by simp)
    rw [renderList_scan_none hscan, ih h.2]

theorem renderList_nil_vars : ∀ (n : Nat) (s : List Char), s.length ≤ n →
    renderList [] s = s := by
  intro n
  induction n with
  | zero =>
    intro s hs
    have : s = [] := List.length_eq_zero.1 (Nat.le_zero.1 hs)
    subst this
    rfl
  | succ k ih =>
    intro s hs
    cases hscan : scanPH s with
    | some pr =>
      obtain ⟨id, after⟩ := pr
      obtain ⟨hshape, _⟩ := scanPH_shape hscan
      have hlen : after.length < s.length := scanPH_length hscan
      rw [renderList_scan_some hscan]
      have hlv : lookupVar [] (String.mk id) = none := rfl
      rw [hlv]
      rw [ih after (by omega)]
      rw [hshape]
      simp
    | none =>
      match s with
      | [] => rfl
      | c :: rest =>
        rw [renderList_scan_none hscan]
        rw [ih rest (by simp at hs; omega)]

theorem render_sql_template_eq (vars : List (String × String)) (s : String) :
    render_sql_template vars s = String.mk (renderList vars s.data) := by
  rw [render_sql_template]
  by_cases h : vars.isEmpty = true
  · rw [if_pos h]
    have hv : vars = [] := List.isEmpty_iff.1 h
    subst hv
    rw [renderList_nil_vars s.data.length s.data (Nat.le_refl _), string_mk_data]
  · rw [if_neg h]

/-- Claim C7: the template renderer replaces every occurrence of
`${IDENTIFIER}` whose identifier is a key of the mapping with the mapped
value's string form; an occurrence with an unmapped identifier is left
verbatim; text with no occurrence at all (including malformed `${...}`
such as `${1bad}`) is returned unchanged, and rendering is total (never an
error); and `render_sql_template` is exactly this substitution pass,
including its empty-mapping early return. -/
theorem c7_template_rendering :
    (∀ (vars : List (String × String)) (p id suf : List Char) (v : String),
      hasMatch (p ++ ['$']) = false → validIdent id = true →
      lookupVar vars (String.mk id) = some v →
      renderList vars (p ++ '$' :: lbrace :: (id ++ rbrace :: suf)) =
        p ++ v.data ++ renderList vars suf) ∧
    (∀ (vars : List (String × String)) (p id suf : List Char),
      hasMatch (p ++ ['$']) = false → validIdent id = true →
      lookupVar vars (String.mk id) = none →
      renderList vars (p ++ '$' :: lbrace :: (id ++ rbrace :: suf)) =
        p ++ '$' :: lbrace :: (id ++ rbrace :: renderList vars suf)) ∧
    (∀ (vars : List (String × String)) (s : List Char),
      hasMatch s = false → renderList vars s = s) ∧
    (∀ (vars : List (String × String)) (s : String),
      render_sql_template vars s = String.mk (renderList vars s.data)) := by
  refine ⟨?_, ?_, renderList_no_match, render_sql_template_eq⟩
  · intro vars p id suf v hnm hid hlv
    rw [renderList_splice vars p hnm hid, hlv]
  · intro vars p id suf hnm hid hlv
    rw [renderList_splice vars p hnm hid, hlv]
    simp

/-- Witness for C7: `SELECT ${X}!` with `X` mapped to `5` renders the
placeholder, and the malformed `${1bad}` is left untouched. -/
theorem c7_template_rendering_witness :
    renderList [(("X"), ("5"))]
        (("SELECT ").data ++ '$' :: lbrace :: (("X").data ++ rbrace :: ("!").data)) =
      ("SELECT ").data ++ ("5").data ++ renderList [(("X"), ("5"))] (("!").data) ∧
    renderList [(("X"), ("5"))] (("$\x7b1bad\x7d").data) = ("$\x7b1bad\x7d").data := by
  constructor
  · exact c7_template_rendering.1 [(("X"), ("5"))] (("SELECT ").data) (("X").data)
      (("!").data) ("5") (by decide) (by decide) (by decide)
  · exact c7_template_rendering.2.2.1 [(("X"), ("5"))] (("$\x7b1bad\x7d").data) (by decide)

end MigrateModel
